import Mathlib

/-!
Verification of the rose-diagram generator (src/app.py).

The program parses two text fields into lists of numbers (parse_input),
validates them (the generate_button handler, lines 103-116) and aggregates
the validated strike/dip measurements into 36 angular bins of 10 degrees
(generate_rose_diagram, lines 46-94).  Python floats are modelled by the
rationals ℚ: all arithmetic the program performs on the claim-relevant
inputs (mod, comparison, sum, division) is exact on them.
-/

set_option maxHeartbeats 1000000
set_option maxRecDepth 100000

namespace RoseApp

/-- Python `x % m` on floats for a positive modulus `m`:
the representative of `x` in `[0, m)`, i.e. `x - m * ⌊x / m⌋`. -/
def qmod (x m : ℚ) : ℚ := x - m * ⌊x / m⌋

/-- Lines 48 and 51 of app.py: `strikes % 360` followed by `% 180`,
folding a strike to its axial azimuth in `[0, 180)`. -/
def foldAz (s : ℚ) : ℚ := qmod (qmod s 360) 180

/-- Line 51: appliying the fold elementwise (`az = strikes % 180` after `% 360`). -/
def azList (strikes : List ℚ) : List ℚ := strikes.map foldAz

/-- Line 54: `az_full = np.concatenate([az, az + 180])`. -/
def azFull (strikes : List ℚ) : List ℚ :=
  azList strikes ++ (azList strikes).map (fun a => a + 180)

/-- Line 55: `dips_full = np.concatenate([dips_folded, dips_folded])`. -/
def dipsFull (dips : List ℚ) : List ℚ := dips ++ dips

/-- Line 68 of app.py: the mask `(az_full >= bins[i]) & (az_full < bins[i+1])`
with `bins[i] = 10 * i`: membership of an azimuth in bin `i`. -/
def inBin (i : ℕ) (a : ℚ) : Bool :=
  decide ((10 * i : ℚ) ≤ a) && decide (a < 10 * (i + 1 : ℕ))

/-- Lines 67-70: `counts[i] = np.sum(idx)`. -/
def binCount (azf : List ℚ) (i : ℕ) : ℕ :=
  (azf.filter (fun a => inBin i a)).length

/-- Lines 71-74: `dip_means[i] = np.mean(dips_full[idx]) if count > 0 else 0`.
The boolean mask over the two equal-length arrays is the filter of their zip. -/
def binMean (azf dipf : List ℚ) (i : ℕ) : ℚ :=
  if 0 < binCount azf i then
    (((azf.zip dipf).filter (fun p => inBin i p.1)).map Prod.snd).sum /
      ((((azf.zip dipf).filter (fun p => inBin i p.1)).map Prod.snd).length : ℚ)
  else 0

/-- The 36-entry array `dip_means` of line 64/72. -/
def dipMeans (azf dipf : List ℚ) : List ℚ :=
  (List.range 36).map (fun i => binMean azf dipf i)

/-- Maximum of a nonempty list, as `np.ndarray.max` computes it
(the `[]` case is unreachable: `dip_means` always has 36 entries). -/
def listMax : List ℚ → ℚ
  | [] => 0
  | a :: t => t.foldl max a

/-- Line 77: `dip_max = dip_means.max()`. -/
def dipMaxOf (azf dipf : List ℚ) : ℚ := listMax (dipMeans azf dipf)

/-- One bin of the aggregation result: center (line 59), count (line 70),
mean dip (line 72/74) and the color value `dip_norm` (line 78). -/
structure BinStat where
  center : ℚ
  count : ℕ
  mean_dip : ℚ
  normalized_dip : ℚ
deriving DecidableEq, Repr

/-- The statistics of bin `i` as generate_rose_diagram computes them;
`dmax` is the already-computed `dip_max`.  The center is
`(bins[i] + bins[i+1]) / 2` (line 59) and the color value is
`dip_means / dip_max if dip_max > 0 else dip_means` (line 78). -/
def mkBin (azf dipf : List ℚ) (dmax : ℚ) (i : ℕ) : BinStat :=
  { center := ((10 * i : ℚ) + 10 * (i + 1 : ℕ)) / 2
    count := binCount azf i
    mean_dip := binMean azf dipf i
    normalized_dip :=
      if 0 < dmax then binMean azf dipf i / dmax else binMean azf dipf i }

/-- The numeric core of generate_rose_diagram (lines 48-78): the ordered
36-bin aggregation result that the plotting code of lines 80-94 renders. -/
def aggregate (strikes dips : List ℚ) : List BinStat :=
  let azf := azFull strikes
  let dipf := dipsFull dips
  let dmax := dipMaxOf azf dipf
  (List.range 36).map (fun i => mkBin azf dipf dmax i)

/-- Bin `i` of an aggregation result (all results have 36 bins). -/
def binAt (r : List BinStat) (i : ℕ) : BinStat := r.getD i ⟨0, 0, 0, 0⟩

/-- Sum of the per-bin counts of an aggregation result. -/
def countSum (r : List BinStat) : ℕ := (r.map BinStat.count).sum

/-- The validation rules of the generate_button handler, lines 103-116.
Messages are modelled by constructors carrying the numbers they report. -/
inductive VError where
  | strikeEmpty : VError
  | strikeMin : ℕ → VError
  | dipEmpty : VError
  | dipMin : ℕ → VError
  | lengthMismatch : ℕ → ℕ → VError
deriving DecidableEq, Repr

/-- Lines 103-116 of app.py: the `errors` list, in the order the handler
appends the messages (strike checks, dip checks, length check). -/
def validate (strikes dips : List ℚ) : List VError :=
  (if strikes.length = 0 then [VError.strikeEmpty]
   else if strikes.length < 25 then [VError.strikeMin strikes.length]
   else [])
  ++ (if dips.length = 0 then [VError.dipEmpty]
      else if dips.length < 25 then [VError.dipMin dips.length]
      else [])
  ++ (if strikes.length ≠ dips.length then
        [VError.lengthMismatch strikes.length dips.length]
      else [])

/-! Parsing (parse_input, lines 35-43) and the generate_button handler
(lines 97-155).  Strings are modelled as their character lists. -/

/-- Python `str.strip()`: drop whitespace from both ends. -/
def trimChars (l : List Char) : List Char :=
  ((l.dropWhile Char.isWhitespace).reverse.dropWhile Char.isWhitespace).reverse

/-- Python `str.replace(a, b)` for single characters. -/
def replaceChar (a b : Char) (l : List Char) : List Char :=
  l.map (fun c => if c = a then b else c)

/-- Python `str.replace(a, '')` for a single character: delete every occurrence. -/
def removeChar (a : Char) (l : List Char) : List Char :=
  l.filter (fun c => c ≠ a)

/-- Prepend a character to the first piece of a split result. -/
def consHead (c : Char) : List (List Char) → List (List Char)
  | [] => [[c]]
  | t :: ts => (c :: t) :: ts

/-- Python `str.split(',')` (line 42). -/
def splitOnComma : List Char → List (List Char)
  | [] => [[]]
  | c :: r => if c = ',' then [] :: splitOnComma r else consHead c (splitOnComma r)

/-- Splitting on commas and newlines together (used by the spec-side parser
and by the amended description of parse_input). -/
def splitOnCommaNL : List Char → List (List Char)
  | [] => [[]]
  | c :: r =>
      if c = ',' ∨ c = '\n' then [] :: splitOnCommaNL r
      else consHead c (splitOnCommaNL r)

/-- Nat value of a digit string. -/
def digitsToNat (l : List Char) : ℕ :=
  l.foldl (fun acc c => 10 * acc + (c.toNat - 48)) 0

/-- Python `float(token)` on the decimal literals the application receives:
optional sign, integer digits, optional point and fraction digits, at least
one digit in total.  `none` models `float` raising `ValueError`.  (Exponent
and inf/nan literals are outside ℚ-exact modelling and outside every claim.) -/
def parseFloat (s : List Char) : Option ℚ :=
  let signRest : ℚ × List Char :=
    match s with
    | c :: r => if c = '-' then (-1, r) else if c = '+' then ((1 : ℚ), r) else (1, s)
    | [] => (1, [])
  let ip := signRest.2.takeWhile Char.isDigit
  let rest1 := signRest.2.dropWhile Char.isDigit
  match rest1 with
  | [] => if ip.isEmpty then none else some (signRest.1 * digitsToNat ip)
  | c :: r =>
      if c = '.' then
        let fp := r.takeWhile Char.isDigit
        let rest2 := r.dropWhile Char.isDigit
        if rest2.isEmpty then
          if ip.isEmpty && fp.isEmpty then none
          else some (signRest.1 * ((digitsToNat ip : ℚ) + (digitsToNat fp : ℚ) / 10 ^ fp.length))
        else none
      else none

/-- Running `float` over every kept token of the comprehension on line 42;
`none` as soon as one token fails (the `ValueError` aborts the whole list). -/
def parseTokens : List (List Char) → Option (List ℚ)
  | [] => some []
  | t :: ts =>
      match parseFloat t, parseTokens ts with
      | some v, some vs => some (v :: vs)
      | _, _ => none

/-- Lines 35-43 of app.py, parse_input: empty-after-strip text gives `[]`;
otherwise newlines are replaced by commas, every space character is deleted
(`.replace(' ', '')` — all of them, not only surrounding ones), the result is
split on commas, tokens empty after strip are dropped and the rest go
through `float(x.strip())`. -/
def parse_input (text : String) : Option (List ℚ) :=
  if trimChars text.data = [] then some []
  else
    parseTokens
      (List.map trimChars
        (List.filter (fun x => trimChars x ≠ [])
          (splitOnComma (removeChar ' ' (replaceChar '\n' ',' text.data)))))

/-- Modelled from the spec (§4.1 parsing rule), for comparison with
parse_input: split the raw text on commas and newlines, strip surrounding
whitespace from every token, drop empty tokens, parse the rest as floats;
any non-numeric token is a parse failure. -/
def parse_spec (text : String) : Option (List ℚ) :=
  parseTokens
    (((splitOnCommaNL text.data).map trimChars).filter (fun x => x ≠ []))

/-- The amended description of parse_input: delete every space character
(also inside tokens), split on commas and newlines, strip the remaining
tokens, drop the empty ones and parse the rest as floats ([] for text that
is empty after stripping). -/
def parse_amended (text : String) : Option (List ℚ) :=
  if trimChars text.data = [] then some []
  else
    parseTokens
      (((splitOnCommaNL (removeChar ' ' text.data)).map trimChars).filter
        (fun x => x ≠ []))

/-- Outcome of pressing the generate button (lines 97-155): an uncaught
exception from `float()` (no try/except anywhere in the handler), the
validation-error display, or a rendered aggregation result. -/
inductive Outcome where
  | exn : Outcome
  | invalid : List VError → Outcome
  | ok : List BinStat → Outcome
deriving DecidableEq, Repr

/-- Lines 97-136 of app.py: parse both fields (an unparseable token raises
out of the handler), validate, and either display the errors or generate. -/
def generate_button (stext dtext : String) : Outcome :=
  match parse_input stext with
  | none => Outcome.exn
  | some strikes =>
      match parse_input dtext with
      | none => Outcome.exn
      | some dips =>
          if validate strikes dips ≠ [] then
            Outcome.invalid (validate strikes dips)
          else Outcome.ok (aggregate strikes dips)

/-! Arithmetic facts about the Python float modulus. -/

lemma qmod_nonneg (x : ℚ) {m : ℚ} (hm : 0 < m) : 0 ≤ qmod x m := by
  have h1 : ((⌊x / m⌋ : ℚ)) ≤ x / m := Int.floor_le _
  have h2 : m * ((⌊x / m⌋ : ℚ)) ≤ m * (x / m) := mul_le_mul_of_nonneg_left h1 hm.le
  have h3 : m * (x / m) = x := by field_simp
  unfold qmod
  linarith

lemma qmod_lt (x : ℚ) {m : ℚ} (hm : 0 < m) : qmod x m < m := by
  have h1 : x / m < (⌊x / m⌋ : ℚ) + 1 := Int.lt_floor_add_one _
  have h2 : m * (x / m) < m * ((⌊x / m⌋ : ℚ) + 1) := by
    exact mul_lt_mul_of_pos_left h1 hm
  have h3 : m * (x / m) = x := by field_simp
  unfold qmod
  nlinarith

lemma qmod_add_int_mul (x m : ℚ) (hm : m ≠ 0) (k : ℤ) :
    qmod (x + m * k) m = qmod x m := by
  unfold qmod
  have h1 : (x + m * k) / m = x / m + k := by
    field_simp
    ring
  rw [h1, Int.floor_add_int]
  push_cast
  ring

lemma qmod_eq_self {x m : ℚ} (h0 : 0 ≤ x) (h1 : x < m) : qmod x m = x := by
  have hm : 0 < m := lt_of_le_of_lt h0 h1
  have hfl : ⌊x / m⌋ = 0 := by
    rw [Int.floor_eq_zero_iff]
    constructor
    · exact div_nonneg h0 hm.le
    · rw [div_lt_one hm]
      exact h1
  unfold qmod
  rw [hfl]
  push_cast
  ring

lemma qmod_qmod (x : ℚ) : qmod (qmod x 360) 180 = qmod x 180 := by
  have h1 : qmod x 360 = x + 180 * ((-2 * ⌊x / 360⌋ : ℤ) : ℚ) := by
    unfold qmod
    push_cast
    ring
  rw [h1, qmod_add_int_mul x 180 (by norm_num)]

lemma foldAz_eq (s : ℚ) : foldAz s = qmod s 180 := qmod_qmod s

lemma foldAz_nonneg (s : ℚ) : 0 ≤ foldAz s := by
  rw [foldAz_eq]
  exact qmod_nonneg s (by norm_num)

lemma foldAz_lt (s : ℚ) : foldAz s < 180 := by
  rw [foldAz_eq]
  exact qmod_lt s (by norm_num)

lemma foldAz_qmod360 (s : ℚ) : foldAz (qmod s 360) = foldAz s := by
  unfold foldAz
  rw [qmod_eq_self (qmod_nonneg s (by norm_num)) (qmod_lt s (by norm_num))]

lemma foldAz_add_180 (s : ℚ) : foldAz (qmod (s + 180) 360) = foldAz s := by
  rw [foldAz_qmod360, foldAz_eq, foldAz_eq]
  have h1 : s + 180 = s + 180 * ((1 : ℤ) : ℚ) := by norm_num
  rw [h1, qmod_add_int_mul s 180 (by norm_num)]

lemma foldAz_add_360_mul (s : ℚ) (k : ℤ) : foldAz (s + 360 * k) = foldAz s := by
  rw [foldAz_eq, foldAz_eq]
  have h1 : s + 360 * (k : ℚ) = s + 180 * ((2 * k : ℤ) : ℚ) := by
    push_cast
    ring
  rw [h1, qmod_add_int_mul s 180 (by norm_num)]

/-! Bin membership. -/

lemma inBin_iff {i : ℕ} {a : ℚ} :
    inBin i a = true ↔ (10 * i : ℚ) ≤ a ∧ a < 10 * (i + 1 : ℕ) := by
  simp [inBin]

/-- Index of the unique bin containing a value of `[0, 360)`. -/
def binIdx (a : ℚ) : ℕ := (⌊a / 10⌋).toNat

lemma inBin_binIdx {a : ℚ} (h0 : 0 ≤ a) : inBin (binIdx a) a = true := by
  have hfl : 0 ≤ ⌊a / 10⌋ := by
    apply Int.floor_nonneg.mpr
    positivity
  have hcast : ((binIdx a : ℕ) : ℚ) = ((⌊a / 10⌋ : ℤ) : ℚ) := by
    unfold binIdx
    exact_mod_cast congrArg (fun z : ℤ => (z : ℚ)) (Int.toNat_of_nonneg hfl)
  rw [inBin_iff]
  constructor
  · rw [hcast]
    have h1 : ((⌊a / 10⌋ : ℤ) : ℚ) ≤ a / 10 := Int.floor_le _
    linarith
  · have h2 : a / 10 < ((⌊a / 10⌋ : ℤ) : ℚ) + 1 := Int.lt_floor_add_one _
    push_cast
    rw [hcast]
    linarith

lemma inBin_unique {i j : ℕ} {a : ℚ} (hi : inBin i a = true)
    (hj : inBin j a = true) : i = j := by
  rw [inBin_iff] at hi hj
  by_contra hne
  rcases Nat.lt_or_ge i j with hlt | hge
  · have h1 : (i + 1 : ℕ) ≤ j := hlt
    have h2 : ((10 * (i + 1 : ℕ) : ℚ)) ≤ 10 * j := by
      have := (Nat.cast_le (α := ℚ)).mpr h1
      linarith
    linarith [hi.2, hj.1]
  · have hlt2 : j < i := lt_of_le_of_ne hge (fun h => hne h.symm)
    have h1 : (j + 1 : ℕ) ≤ i := hlt2
    have h2 : ((10 * (j + 1 : ℕ) : ℚ)) ≤ 10 * i := by
      have := (Nat.cast_le (α := ℚ)).mpr h1
      linarith
    linarith [hj.2, hi.1]

lemma binIdx_lt_36 {a : ℚ} (h1 : a < 360) : binIdx a < 36 := by
  unfold binIdx
  have h2 : ⌊a / 10⌋ < 36 := by
    apply Int.floor_lt.mpr
    push_cast
    linarith
  omega

lemma binIdx_lt_18 {a : ℚ} (h1 : a < 180) : binIdx a < 18 := by
  unfold binIdx
  have h2 : ⌊a / 10⌋ < 18 := by
    apply Int.floor_lt.mpr
    push_cast
    linarith
  omega

/-- Shifting a value by 180 degrees shifts its bin by 18. -/
lemma inBin_shift (i : ℕ) (a : ℚ) : inBin (i + 18) (a + 180) = inBin i a := by
  have h1 : ((10 * (i + 18 : ℕ) : ℚ) ≤ a + 180) ↔ ((10 * i : ℚ) ≤ a) := by
    push_cast
    constructor <;> intro h <;> linarith
  have h2 : (a + 180 < (10 * ((i + 18) + 1 : ℕ) : ℚ)) ↔ (a < 10 * (i + 1 : ℕ)) := by
    push_cast
    constructor <;> intro h <;> linarith
  simp only [inBin]
  rw [decide_eq_decide.mpr h1, decide_eq_decide.mpr h2]

lemma inBin_false_of_ge {i : ℕ} {a : ℚ} (hi : i < 18) (ha : 180 ≤ a) :
    inBin i a = false := by
  rw [Bool.eq_false_iff]
  intro h
  rcases inBin_iff.mp h with ⟨_, h2⟩
  have h3 : (i + 1 : ℕ) ≤ 18 := hi
  have h4 : ((10 * (i + 1 : ℕ) : ℚ)) ≤ 180 := by
    have := (Nat.cast_le (α := ℚ)).mpr h3
    push_cast at this ⊢
    linarith
  linarith

lemma inBin_false_of_lt {i : ℕ} {a : ℚ} (hi : 18 ≤ i) (ha : a < 180) :
    inBin i a = false := by
  rw [Bool.eq_false_iff]
  intro h
  rcases inBin_iff.mp h with ⟨h1, _⟩
  have h4 : (180 : ℚ) ≤ 10 * i := by
    have := (Nat.cast_le (α := ℚ)).mpr hi
    push_cast at this ⊢
    linarith
  linarith

/-! List helper lemmas. -/

lemma le_foldl_max (t : List ℚ) (a : ℚ) : a ≤ t.foldl max a := by
  induction t generalizing a with
  | nil => exact le_refl a
  | cons b t ih => exact le_trans (le_max_left a b) (ih (max a b))

lemma mem_le_foldl_max {x : ℚ} (t : List ℚ) (a : ℚ) (h : x ∈ t) :
    x ≤ t.foldl max a := by
  induction t generalizing a with
  | nil => cases h
  | cons b t ih =>
      rcases List.mem_cons.mp h with hb | ht
      · subst hb
        exact le_trans (le_max_right a x) (le_foldl_max t (max a x))
      · exact ih (max a b) ht

lemma foldl_max_mem (t : List ℚ) (a : ℚ) : t.foldl max a = a ∨ t.foldl max a ∈ t := by
  induction t generalizing a with
  | nil => exact Or.inl rfl
  | cons b t ih =>
      rcases ih (max a b) with h | h
      · rcases max_choice a b with hm | hm
        · exact Or.inl (by rw [List.foldl_cons, h, hm])
        · refine Or.inr (List.mem_cons_self b t |> fun hb => ?_)
          rw [List.foldl_cons, h, hm]
          exact List.mem_cons_self b t
      · exact Or.inr (List.mem_cons_of_mem b h)

lemma le_listMax {l : List ℚ} {x : ℚ} (h : x ∈ l) : x ≤ listMax l := by
  cases l with
  | nil => cases h
  | cons a t =>
      rcases List.mem_cons.mp h with hb | ht
      · subst hb
        exact le_foldl_max t x
      · exact mem_le_foldl_max t a ht

lemma listMax_mem {l : List ℚ} (h : l ≠ []) : listMax l ∈ l := by
  cases l with
  | nil => exact absurd rfl h
  | cons a t =>
      rcases foldl_max_mem t a with h1 | h1
      · rw [listMax, h1]
        exact List.mem_cons_self a t
      · exact List.mem_cons_of_mem a h1

lemma sum_map_range {M : Type} [AddCommMonoid M] (n : ℕ) (f : ℕ → M) :
    ((List.range n).map f).sum = ∑ i ∈ Finset.range n, f i := by
  induction n with
  | zero => simp
  | succ n ih => rw [List.sum_range_succ, Finset.sum_range_succ, ih]

lemma set_getElem_eq_self (l : List ℚ) (i : ℕ) (h : i < l.length) :
    l.set i l[i] = l := by
  apply List.ext_getElem
  · simp
  · intro j h1 h2
    rw [List.getElem_set]
    split
    · next heq => subst heq; rfl
    · rfl

/-! Access to the aggregation result. -/

lemma aggregate_eq (strikes dips : List ℚ) :
    aggregate strikes dips =
      (List.range 36).map
        (fun i =>
          mkBin (azFull strikes) (dipsFull dips)
            (dipMaxOf (azFull strikes) (dipsFull dips)) i) := rfl

lemma aggregate_length (strikes dips : List ℚ) :
    (aggregate strikes dips).length = 36 := by
  rw [aggregate_eq]
  simp

lemma binAt_aggregate (strikes dips : List ℚ) {i : ℕ} (h : i < 36) :
    binAt (aggregate strikes dips) i =
      mkBin (azFull strikes) (dipsFull dips)
        (dipMaxOf (azFull strikes) (dipsFull dips)) i := by
  have hlen :
      i < ((List.range 36).map
        (fun j =>
          mkBin (azFull strikes) (dipsFull dips)
            (dipMaxOf (azFull strikes) (dipsFull dips)) j)).length := by
    simpa using h
  unfold binAt
  rw [aggregate_eq, List.getD_eq_getElem _ _ hlen, List.getElem_map,
    List.getElem_range]

lemma mem_aggregate {strikes dips : List ℚ} {b : BinStat}
    (h : b ∈ aggregate strikes dips) :
    ∃ i, i < 36 ∧
      b = mkBin (azFull strikes) (dipsFull dips)
            (dipMaxOf (azFull strikes) (dipsFull dips)) i := by
  rw [aggregate_eq] at h
  rcases List.mem_map.mp h with ⟨i, hi, hb⟩
  exact ⟨i, List.mem_range.mp hi, hb.symm⟩

/-! Facts extracted from a successful validation. -/

lemma validate_eq_nil {strikes dips : List ℚ} (h : validate strikes dips = []) :
    25 ≤ strikes.length ∧ 25 ≤ dips.length ∧ strikes.length = dips.length := by
  unfold validate at h
  rcases List.append_eq_nil.mp h with ⟨h12, h3⟩
  rcases List.append_eq_nil.mp h12 with ⟨h1, h2⟩
  have hs : 25 ≤ strikes.length := by
    by_cases e0 : strikes.length = 0
    · rw [if_pos e0] at h1
      cases h1
    · rw [if_neg e0] at h1
      by_cases e1 : strikes.length < 25
      · rw [if_pos e1] at h1
        cases h1
      · omega
  have hd : 25 ≤ dips.length := by
    by_cases e0 : dips.length = 0
    · rw [if_pos e0] at h2
      cases h2
    · rw [if_neg e0] at h2
      by_cases e1 : dips.length < 25
      · rw [if_pos e1] at h2
        cases h2
      · omega
  have he : strikes.length = dips.length := by
    by_cases e : strikes.length ≠ dips.length
    · rw [if_pos e] at h3
      cases h3
    · omega
  exact ⟨hs, hd, he⟩

/-! Every entry of az_full lies in [0, 360) and falls in exactly one bin. -/

lemma azList_length (strikes : List ℚ) : (azList strikes).length = strikes.length := by
  simp [azList]

lemma azFull_length (strikes : List ℚ) :
    (azFull strikes).length = 2 * strikes.length := by
  simp [azFull, azList]
  omega

lemma mem_azFull_bounds {strikes : List ℚ} {a : ℚ} (h : a ∈ azFull strikes) :
    0 ≤ a ∧ a < 360 := by
  unfold azFull at h
  rcases List.mem_append.mp h with h1 | h1
  · rcases List.mem_map.mp h1 with ⟨s, _, hs⟩
    subst hs
    exact ⟨foldAz_nonneg s, lt_trans (foldAz_lt s) (by norm_num)⟩
  · rcases List.mem_map.mp h1 with ⟨a0, ha0, hs⟩
    rcases List.mem_map.mp ha0 with ⟨s, _, hs0⟩
    subst hs0
    subst hs
    constructor
    · have := foldAz_nonneg s
      linarith
    · have := foldAz_lt s
      linarith

lemma indicator_sum {a : ℚ} (h0 : 0 ≤ a) (h1 : a < 360) :
    (∑ i ∈ Finset.range 36, if inBin i a then (1 : ℕ) else 0) = 1 := by
  have key : ∀ i : ℕ, (if inBin i a then (1 : ℕ) else 0) =
      if i = binIdx a then 1 else 0 := by
    intro i
    by_cases h : inBin i a = true
    · rw [if_pos h, if_pos (inBin_unique h (inBin_binIdx h0))]
    · rw [if_neg h, if_neg]
      intro heq
      subst heq
      exact h (inBin_binIdx h0)
  calc (∑ i ∈ Finset.range 36, if inBin i a then (1 : ℕ) else 0)
      = ∑ i ∈ Finset.range 36, if i = binIdx a then (1 : ℕ) else 0 :=
        Finset.sum_congr rfl (fun i _ => key i)
    _ = 1 := by
        rw [Finset.sum_ite_eq' (Finset.range 36) (binIdx a) (fun _ => (1 : ℕ))]
        rw [if_pos (Finset.mem_range.mpr (binIdx_lt_36 h1))]

lemma filter_length_sum (l : List ℚ) (hb : ∀ a ∈ l, 0 ≤ a ∧ a < 360) :
    (∑ i ∈ Finset.range 36, (l.filter (fun a => inBin i a)).length) = l.length := by
  induction l with
  | nil => simp
  | cons a t ih =>
      have hcons : ∀ i : ℕ,
          ((a :: t).filter (fun x => inBin i x)).length =
            (if inBin i a then (1 : ℕ) else 0) +
              (t.filter (fun x => inBin i x)).length := by
        intro i
        rw [List.filter_cons]
        split
        · next hcond => simp [hcond, Nat.add_comm]
        · next hcond => simp [hcond]
      have ha := hb a (List.mem_cons_self a t)
      calc (∑ i ∈ Finset.range 36, ((a :: t).filter (fun x => inBin i x)).length)
          = ∑ i ∈ Finset.range 36,
              ((if inBin i a then (1 : ℕ) else 0) +
                (t.filter (fun x => inBin i x)).length) :=
            Finset.sum_congr rfl (fun i _ => hcons i)
        _ = (∑ i ∈ Finset.range 36, if inBin i a then (1 : ℕ) else 0) +
              ∑ i ∈ Finset.range 36, (t.filter (fun x => inBin i x)).length :=
            Finset.sum_add_distrib
        _ = 1 + t.length := by
            rw [indicator_sum ha.1 ha.2,
              ih (fun x hx => hb x (List.mem_cons_of_mem a hx))]
        _ = (a :: t).length := by
            simp [Nat.add_comm]

/-! Claim theorems. -/

/-- C1 (counterexample): for 25 strikes of 10 and 25 dips of 50, the bin
centered at 5 degrees is bin 0, and its count is 0, not 25 as the claim
states: an azimuth of exactly 10 lies on the edge and belongs to `[10, 20)`. -/
theorem c1_counterexample :
    (binAt (aggregate (List.replicate 25 (10 : ℚ)) (List.replicate 25 (50 : ℚ))) 0).center
        = 5 ∧
    (binAt (aggregate (List.replicate 25 (10 : ℚ)) (List.replicate 25 (50 : ℚ))) 0).count
        = 0 ∧
    ¬ ((binAt (aggregate (List.replicate 25 (10 : ℚ)) (List.replicate 25 (50 : ℚ))) 0).count
        = 25) := by
  with_unfolding_all decide

/-- C1 (amended): for 25 strikes of 10 and 25 dips of 50 (which pass
validation), the bin centered at 15 degrees and its +180 twin centered at 195
each have count 25, mean_dip 50 and normalized_dip 1, and every other bin has
count 0, mean_dip 0 and normalized_dip 0. -/
theorem c1_scenarioA :
    validate (List.replicate 25 (10 : ℚ)) (List.replicate 25 (50 : ℚ)) = [] ∧
    aggregate (List.replicate 25 (10 : ℚ)) (List.replicate 25 (50 : ℚ)) =
      [⟨5, 0, 0, 0⟩,
       ⟨15, 25, 50, 1⟩,
       ⟨25, 0, 0, 0⟩,
       ⟨35, 0, 0, 0⟩,
       ⟨45, 0, 0, 0⟩,
       ⟨55, 0, 0, 0⟩,
       ⟨65, 0, 0, 0⟩,
       ⟨75, 0, 0, 0⟩,
       ⟨85, 0, 0, 0⟩,
       ⟨95, 0, 0, 0⟩,
       ⟨105, 0, 0, 0⟩,
       ⟨115, 0, 0, 0⟩,
       ⟨125, 0, 0, 0⟩,
       ⟨135, 0, 0, 0⟩,
       ⟨145, 0, 0, 0⟩,
       ⟨155, 0, 0, 0⟩,
       ⟨165, 0, 0, 0⟩,
       ⟨175, 0, 0, 0⟩,
       ⟨185, 0, 0, 0⟩,
       ⟨195, 25, 50, 1⟩,
       ⟨205, 0, 0, 0⟩,
       ⟨215, 0, 0, 0⟩,
       ⟨225, 0, 0, 0⟩,
       ⟨235, 0, 0, 0⟩,
       ⟨245, 0, 0, 0⟩,
       ⟨255, 0, 0, 0⟩,
       ⟨265, 0, 0, 0⟩,
       ⟨275, 0, 0, 0⟩,
       ⟨285, 0, 0, 0⟩,
       ⟨295, 0, 0, 0⟩,
       ⟨305, 0, 0, 0⟩,
       ⟨315, 0, 0, 0⟩,
       ⟨325, 0, 0, 0⟩,
       ⟨335, 0, 0, 0⟩,
       ⟨345, 0, 0, 0⟩,
       ⟨355, 0, 0, 0⟩] := by
  constructor
  · with_unfolding_all decide
  · with_unfolding_all decide

/-- C2: for every measurement set that passes validation, the per-bin counts
of the aggregation result sum to exactly twice the number of measurements
(every sample is duplicated by the axial doubling and lands in exactly one
of the 36 bins). -/
theorem c2_count_conservation (strikes dips : List ℚ)
    (h : validate strikes dips = []) :
    countSum (aggregate strikes dips) = 2 * strikes.length := by
  have hcs : countSum (aggregate strikes dips) =
      ((List.range 36).map (fun i => binCount (azFull strikes) i)).sum := by
    rw [countSum, aggregate_eq, List.map_map]
    rfl
  rw [hcs, sum_map_range]
  unfold binCount
  rw [filter_length_sum (azFull strikes) (fun a ha => mem_azFull_bounds ha)]
  exact azFull_length strikes

theorem c2_count_conservation_witness :
    validate (List.replicate 25 (10 : ℚ)) (List.replicate 25 (50 : ℚ)) = [] ∧
    countSum (aggregate (List.replicate 25 (10 : ℚ)) (List.replicate 25 (50 : ℚ))) =
      2 * (List.replicate 25 (10 : ℚ)).length :=
  ⟨by with_unfolding_all decide,
   c2_count_conservation _ _ (by with_unfolding_all decide)⟩

/-- C3: every azimuth value of [0, 360) satisfies the bin-membership test of
exactly one of the 36 bins, and a value exactly on the edge `10 * k` belongs
to bin `k`, the bin starting at that edge (lower-inclusive, upper-exclusive). -/
theorem c3_bin_coverage :
    (∀ a : ℚ, 0 ≤ a → a < 360 →
      ∃! i : ℕ, i < 36 ∧ inBin i a = true) ∧
    (∀ k : ℕ, k < 36 → inBin k (10 * (k : ℚ)) = true) := by
  constructor
  · intro a h0 h1
    refine ⟨binIdx a, ⟨binIdx_lt_36 h1, inBin_binIdx h0⟩, ?_⟩
    intro j hj
    exact inBin_unique hj.2 (inBin_binIdx h0)
  · intro k _
    rw [inBin_iff]
    constructor
    · exact le_refl _
    · push_cast
      linarith

theorem c3_bin_coverage_witness :
    (0 : ℚ) ≤ 20 ∧ (20 : ℚ) < 360 ∧
    (∃! i : ℕ, i < 36 ∧ inBin i (20 : ℚ) = true) :=
  ⟨by norm_num, by norm_num, c3_bin_coverage.1 20 (by norm_num) (by norm_num)⟩

/-- C6: when the strike field parses to 10 numbers and the dip field to 30,
the validator emits exactly the two messages of lines 108 and 116 — the
strike minimum-sample error with the actual count, and the length-mismatch
error with both counts — in this order. -/
theorem c6_two_errors (strikes dips : List ℚ) (hs : strikes.length = 10)
    (hd : dips.length = 30) :
    validate strikes dips =
      [VError.strikeMin 10, VError.lengthMismatch 10 30] := by
  unfold validate
  rw [hs, hd]
  decide

theorem c6_two_errors_witness :
    (List.replicate 10 (0 : ℚ)).length = 10 ∧
    (List.replicate 30 (0 : ℚ)).length = 30 ∧
    validate (List.replicate 10 (0 : ℚ)) (List.replicate 30 (0 : ℚ)) =
      [VError.strikeMin 10, VError.lengthMismatch 10 30] :=
  ⟨by decide, by decide,
   c6_two_errors _ _ (by decide) (by decide)⟩

/-- C10: for each field, the emptiness check and the minimum-sample check
are mutually exclusive (the `elif` of lines 107 and 112): an empty field
yields its emptiness error and never a minimum-sample error for that field,
while the length-mismatch error of line 116 appears exactly when the two
lengths differ. -/
theorem c10_empty_min_exclusive (strikes dips : List ℚ) :
    (strikes.length = 0 →
      VError.strikeEmpty ∈ validate strikes dips ∧
      (∀ n : ℕ, VError.strikeMin n ∉ validate strikes dips) ∧
      (VError.lengthMismatch strikes.length dips.length ∈ validate strikes dips ↔
        strikes.length ≠ dips.length)) ∧
    (dips.length = 0 →
      VError.dipEmpty ∈ validate strikes dips ∧
      (∀ n : ℕ, VError.dipMin n ∉ validate strikes dips) ∧
      (VError.lengthMismatch strikes.length dips.length ∈ validate strikes dips ↔
        strikes.length ≠ dips.length)) := by
  constructor
  · intro hs
    refine ⟨?_, ?_, ?_⟩
    · simp [validate, hs]
    · intro n
      simp only [validate, hs]
      split_ifs <;> simp
    · simp only [validate, hs]
      split_ifs <;> simp_all
  · intro hd
    refine ⟨?_, ?_, ?_⟩
    · simp [validate, hd]
    · intro n
      simp only [validate, hd]
      split_ifs <;> simp
    · simp only [validate, hd]
      split_ifs <;> simp_all

theorem c10_empty_min_exclusive_witness :
    ([] : List ℚ).length = 0 ∧
    (VError.strikeEmpty ∈ validate ([] : List ℚ) (List.replicate 30 (0 : ℚ)) ∧
      (∀ n : ℕ, VError.strikeMin n ∉ validate ([] : List ℚ) (List.replicate 30 (0 : ℚ))) ∧
      (VError.lengthMismatch ([] : List ℚ).length (List.replicate 30 (0 : ℚ)).length ∈
          validate ([] : List ℚ) (List.replicate 30 (0 : ℚ)) ↔
        ([] : List ℚ).length ≠ (List.replicate 30 (0 : ℚ)).length)) ∧
    (VError.dipEmpty ∈ validate (List.replicate 30 (0 : ℚ)) ([] : List ℚ) ∧
      (∀ n : ℕ, VError.dipMin n ∉ validate (List.replicate 30 (0 : ℚ)) ([] : List ℚ)) ∧
      (VError.lengthMismatch (List.replicate 30 (0 : ℚ)).length ([] : List ℚ).length ∈
          validate (List.replicate 30 (0 : ℚ)) ([] : List ℚ) ↔
        (List.replicate 30 (0 : ℚ)).length ≠ ([] : List ℚ).length)) :=
  ⟨rfl, (c10_empty_min_exclusive ([] : List ℚ) (List.replicate 30 (0 : ℚ))).1 rfl,
   (c10_empty_min_exclusive (List.replicate 30 (0 : ℚ)) ([] : List ℚ)).2 rfl⟩

/-! C7: the aggregation result depends on a strike only through its folded
azimuth, which is 180-degree periodic. -/

lemma aggregate_congr {s₁ s₂ : List ℚ} (dips : List ℚ)
    (h : azList s₁ = azList s₂) : aggregate s₁ dips = aggregate s₂ dips := by
  rw [aggregate_eq, aggregate_eq]
  unfold azFull
  rw [h]

lemma azList_set (strikes : List ℚ) (i : ℕ) (h : i < strikes.length) (v : ℚ)
    (hv : foldAz v = foldAz strikes[i]) :
    azList (strikes.set i v) = azList strikes := by
  unfold azList
  rw [List.map_set, hv]
  have hlen2 : i < (List.map foldAz strikes).length := by simpa using h
  have hmap : (List.map foldAz strikes)[i] = foldAz strikes[i] :=
    List.getElem_map foldAz
  rw [← hmap]
  exact set_getElem_eq_self _ i (by simpa using h)

/-- C7: aggregation is 180-degree periodic in each strike: replacing the
i-th strike `s` by `(s + 180) mod 360`, or by `s` plus any integer multiple
of 360 (e.g. 370 versus a literal 10), with dips unchanged, leaves the whole
36-bin result (count, mean_dip and normalized_dip of every bin) unchanged. -/
theorem c7_axial_periodicity (strikes dips : List ℚ) (i : ℕ)
    (h : i < strikes.length) (k : ℤ) :
    aggregate (strikes.set i (qmod (strikes.getD i 0 + 180) 360)) dips =
        aggregate strikes dips ∧
    aggregate (strikes.set i (strikes.getD i 0 + 360 * (k : ℚ))) dips =
        aggregate strikes dips := by
  have hg : strikes.getD i 0 = strikes[i] := List.getD_eq_getElem strikes 0 h
  constructor
  · apply aggregate_congr
    apply azList_set strikes i h
    rw [hg, foldAz_add_180]
  · apply aggregate_congr
    apply azList_set strikes i h
    rw [hg, foldAz_add_360_mul]

theorem c7_axial_periodicity_witness :
    (0 : ℕ) < [(370 : ℚ)].length ∧
    (aggregate ([(370 : ℚ)].set 0 (qmod ([(370 : ℚ)].getD 0 0 + 180) 360)) [(50 : ℚ)] =
        aggregate [(370 : ℚ)] [(50 : ℚ)] ∧
      aggregate ([(370 : ℚ)].set 0 ([(370 : ℚ)].getD 0 0 + 360 * ((1 : ℤ) : ℚ))) [(50 : ℚ)] =
        aggregate [(370 : ℚ)] [(50 : ℚ)]) :=
  ⟨by decide, c7_axial_periodicity [(370 : ℚ)] [(50 : ℚ)] 0 (by decide) 1⟩

/-! C8: all-zero dips give all-zero means, a zero dip_max and the
division-free normalization branch. -/

lemma all_dipsFull_zero {dips : List ℚ} (hz : ∀ d ∈ dips, d = 0) :
    ∀ d ∈ dipsFull dips, d = 0 := by
  intro d hd
  rcases List.mem_append.mp hd with h1 | h1
  · exact hz d h1
  · exact hz d h1

lemma binMean_zero {azf dipf : List ℚ} (hz : ∀ d ∈ dipf, d = 0) (i : ℕ) :
    binMean azf dipf i = 0 := by
  unfold binMean
  split
  · have hall :
        ∀ x ∈ (((azf.zip dipf).filter (fun p => inBin i p.1)).map Prod.snd),
          x = 0 := by
      intro x hx
      rcases List.mem_map.mp hx with ⟨p, hp, hpx⟩
      obtain ⟨a, b⟩ := p
      have hzip := List.of_mem_zip (List.mem_of_mem_filter hp)
      rw [← hpx]
      exact hz b hzip.2
    rw [List.sum_eq_zero hall, zero_div]
  · rfl

lemma dipMaxOf_zero (azf dipf : List ℚ) (hz : ∀ d ∈ dipf, d = 0) :
    dipMaxOf azf dipf = 0 := by
  have hne : dipMeans azf dipf ≠ [] := by
    simp [dipMeans, List.range_succ]
  have hmem := listMax_mem hne
  unfold dipMaxOf
  unfold dipMeans at hmem ⊢
  rcases List.mem_map.mp hmem with ⟨j, _, hj⟩
  rw [← hj]
  exact binMean_zero hz j

/-- C8: if every dip of a validated measurement set is 0, then dip_max is 0,
every bin has mean_dip 0 and normalized_dip 0, and the `dip_max > 0` test
fails, so normalization takes the division-free branch that returns the mean
dips unchanged (`normalized_dip = mean_dip` in every bin). -/
theorem c8_zero_safe (strikes dips : List ℚ) (h : validate strikes dips = [])
    (hz : ∀ d ∈ dips, d = 0) :
    dipMaxOf (azFull strikes) (dipsFull dips) = 0 ∧
    ∀ b ∈ aggregate strikes dips,
      b.mean_dip = 0 ∧ b.normalized_dip = 0 ∧ b.normalized_dip = b.mean_dip := by
  have hzf := all_dipsFull_zero hz
  have hdm := dipMaxOf_zero (azFull strikes) (dipsFull dips) hzf
  refine ⟨hdm, ?_⟩
  intro b hb
  rcases mem_aggregate hb with ⟨i, _, hbi⟩
  subst hbi
  simp [mkBin, hdm, binMean_zero hzf i]

theorem c8_zero_safe_witness :
    validate (List.replicate 25 (10 : ℚ)) (List.replicate 25 (0 : ℚ)) = [] ∧
    (∀ d ∈ List.replicate 25 (0 : ℚ), d = 0) ∧
    (dipMaxOf (azFull (List.replicate 25 (10 : ℚ)))
        (dipsFull (List.replicate 25 (0 : ℚ))) = 0 ∧
      ∀ b ∈ aggregate (List.replicate 25 (10 : ℚ)) (List.replicate 25 (0 : ℚ)),
        b.mean_dip = 0 ∧ b.normalized_dip = 0 ∧ b.normalized_dip = b.mean_dip) :=
  ⟨by with_unfolding_all decide, by with_unfolding_all decide,
   c8_zero_safe _ _ (by with_unfolding_all decide) (by with_unfolding_all decide)⟩

/-! C9: the doubled data make bins i and i + 18 carry the same statistics. -/

lemma mem_azList_bounds {strikes : List ℚ} {a : ℚ} (h : a ∈ azList strikes) :
    0 ≤ a ∧ a < 180 := by
  rcases List.mem_map.mp h with ⟨s, _, hs⟩
  subst hs
  exact ⟨foldAz_nonneg s, foldAz_lt s⟩

lemma binCount_symm (strikes : List ℚ) {i : ℕ} (hi : i < 18) :
    binCount (azFull strikes) (i + 18) = binCount (azFull strikes) i := by
  unfold binCount azFull
  rw [List.filter_append, List.filter_append, List.length_append,
    List.length_append]
  have h1 : (azList strikes).filter (fun a => inBin (i + 18) a) = [] := by
    rw [List.filter_eq_nil_iff]
    intro a ha
    rw [inBin_false_of_lt (by omega) (mem_azList_bounds ha).2]
    simp
  have h2 : ((azList strikes).map (fun a => a + 180)).filter
      (fun a => inBin i a) = [] := by
    rw [List.filter_eq_nil_iff]
    intro a ha
    rcases List.mem_map.mp ha with ⟨a0, ha0, hs⟩
    subst hs
    rw [inBin_false_of_ge hi (by linarith [(mem_azList_bounds ha0).1])]
    simp
  have h3 : ((azList strikes).map (fun a => a + 180)).filter
        (fun a => inBin (i + 18) a) =
      ((azList strikes).filter (fun a => inBin i a)).map (fun a => a + 180) := by
    rw [List.filter_map]
    congr 1
    apply List.filter_congr
    intro a _
    exact inBin_shift i a
  rw [h1, h2, h3]
  simp

lemma zipFull_split (strikes dips : List ℚ) (hlen : strikes.length = dips.length) :
    (azFull strikes).zip (dipsFull dips) =
      (azList strikes).zip dips ++
        ((azList strikes).zip dips).map (Prod.map (fun a => a + 180) id) := by
  unfold azFull dipsFull
  rw [List.zip_append (by simp [azList, hlen]), List.zip_map_left]

lemma binSel_symm (strikes dips : List ℚ) (hlen : strikes.length = dips.length)
    {i : ℕ} (hi : i < 18) :
    (((azFull strikes).zip (dipsFull dips)).filter
        (fun p => inBin (i + 18) p.1)).map Prod.snd =
      (((azFull strikes).zip (dipsFull dips)).filter
        (fun p => inBin i p.1)).map Prod.snd := by
  rw [zipFull_split strikes dips hlen, List.filter_append, List.filter_append,
    List.map_append, List.map_append]
  have hP : ∀ p ∈ (azList strikes).zip dips, 0 ≤ p.1 ∧ p.1 < 180 := by
    intro p hp
    obtain ⟨a, b⟩ := p
    exact mem_azList_bounds (List.of_mem_zip hp).1
  have h1 : ((azList strikes).zip dips).filter (fun p => inBin (i + 18) p.1)
      = [] := by
    rw [List.filter_eq_nil_iff]
    intro p hp
    rw [inBin_false_of_lt (by omega) (hP p hp).2]
    simp
  have h2 : (((azList strikes).zip dips).map
        (Prod.map (fun a => a + 180) id)).filter (fun p => inBin i p.1) = [] := by
    rw [List.filter_eq_nil_iff]
    intro q hq
    rcases List.mem_map.mp hq with ⟨p, hp, hpq⟩
    subst hpq
    have h180 : (180 : ℚ) ≤ (Prod.map (fun a => a + 180) id p).1 := by
      simp [Prod.map]
      linarith [(hP p hp).1]
    rw [inBin_false_of_ge hi h180]
    simp
  have h3 : (((azList strikes).zip dips).map
        (Prod.map (fun a => a + 180) id)).filter (fun p => inBin (i + 18) p.1) =
      (((azList strikes).zip dips).filter (fun p => inBin i p.1)).map
        (Prod.map (fun a => a + 180) id) := by
    rw [List.filter_map]
    congr 1
    apply List.filter_congr
    intro p _
    show inBin (i + 18) (Prod.map (fun a => a + 180) id p).1 = inBin i p.1
    have : (Prod.map (fun a : ℚ => a + 180) id p).1 = p.1 + 180 := by
      simp [Prod.map]
    rw [this, inBin_shift]
  rw [h1, h2, h3]
  simp [List.map_map]

lemma binMean_symm (strikes dips : List ℚ) (hlen : strikes.length = dips.length)
    {i : ℕ} (hi : i < 18) :
    binMean (azFull strikes) (dipsFull dips) (i + 18) =
      binMean (azFull strikes) (dipsFull dips) i := by
  unfold binMean
  rw [binCount_symm strikes hi, binSel_symm strikes dips hlen hi]

/-- C9: for every validated measurement set the aggregation result is
point-symmetric: for each i < 18, bin i and bin i + 18 have the same count,
the same mean_dip and the same normalized_dip. -/
theorem c9_point_symmetry (strikes dips : List ℚ)
    (h : validate strikes dips = []) (i : ℕ) (hi : i < 18) :
    (binAt (aggregate strikes dips) (i + 18)).count =
        (binAt (aggregate strikes dips) i).count ∧
    (binAt (aggregate strikes dips) (i + 18)).mean_dip =
        (binAt (aggregate strikes dips) i).mean_dip ∧
    (binAt (aggregate strikes dips) (i + 18)).normalized_dip =
        (binAt (aggregate strikes dips) i).normalized_dip := by
  have hlen := (validate_eq_nil h).2.2
  have h36a : i + 18 < 36 := by omega
  have h36b : i < 36 := by omega
  rw [binAt_aggregate strikes dips h36a, binAt_aggregate strikes dips h36b]
  refine ⟨binCount_symm strikes hi, binMean_symm strikes dips hlen hi, ?_⟩
  show (if 0 < dipMaxOf (azFull strikes) (dipsFull dips) then
          binMean (azFull strikes) (dipsFull dips) (i + 18) /
            dipMaxOf (azFull strikes) (dipsFull dips)
        else binMean (azFull strikes) (dipsFull dips) (i + 18)) =
      (if 0 < dipMaxOf (azFull strikes) (dipsFull dips) then
          binMean (azFull strikes) (dipsFull dips) i /
            dipMaxOf (azFull strikes) (dipsFull dips)
        else binMean (azFull strikes) (dipsFull dips) i)
  rw [binMean_symm strikes dips hlen hi]

theorem c9_point_symmetry_witness :
    validate (List.replicate 25 (10 : ℚ)) (List.replicate 25 (50 : ℚ)) = [] ∧
    (0 : ℕ) < 18 ∧
    ((binAt (aggregate (List.replicate 25 (10 : ℚ)) (List.replicate 25 (50 : ℚ))) (0 + 18)).count =
        (binAt (aggregate (List.replicate 25 (10 : ℚ)) (List.replicate 25 (50 : ℚ))) 0).count ∧
      (binAt (aggregate (List.replicate 25 (10 : ℚ)) (List.replicate 25 (50 : ℚ))) (0 + 18)).mean_dip =
        (binAt (aggregate (List.replicate 25 (10 : ℚ)) (List.replicate 25 (50 : ℚ))) 0).mean_dip ∧
      (binAt (aggregate (List.replicate 25 (10 : ℚ)) (List.replicate 25 (50 : ℚ))) (0 + 18)).normalized_dip =
        (binAt (aggregate (List.replicate 25 (10 : ℚ)) (List.replicate 25 (50 : ℚ))) 0).normalized_dip) :=
  ⟨by with_unfolding_all decide, by decide,
   c9_point_symmetry _ _ (by with_unfolding_all decide) 0 (by decide)⟩

/-! C4: normalization bounds. -/

lemma mem_sel_mem_dipf {azf dipf : List ℚ} {i : ℕ} {x : ℚ}
    (hx : x ∈ (((azf.zip dipf).filter (fun p => inBin i p.1)).map Prod.snd)) :
    x ∈ dipf := by
  rcases List.mem_map.mp hx with ⟨p, hp, hpx⟩
  obtain ⟨a, b⟩ := p
  rw [← hpx]
  exact (List.of_mem_zip (List.mem_of_mem_filter hp)).2

lemma binMean_nonneg {azf dipf : List ℚ} (hd : ∀ d ∈ dipf, 0 ≤ d) (i : ℕ) :
    0 ≤ binMean azf dipf i := by
  unfold binMean
  split
  · apply div_nonneg
    · exact List.sum_nonneg (fun x hx => hd x (mem_sel_mem_dipf hx))
    · exact Nat.cast_nonneg _
  · exact le_refl 0

lemma binMean_mem_dipMeans (azf dipf : List ℚ) {i : ℕ} (hi : i < 36) :
    binMean azf dipf i ∈ dipMeans azf dipf :=
  List.mem_map.mpr ⟨i, List.mem_range.mpr hi, rfl⟩

lemma binMean_le_dipMaxOf (azf dipf : List ℚ) {i : ℕ} (hi : i < 36) :
    binMean azf dipf i ≤ dipMaxOf azf dipf :=
  le_listMax (binMean_mem_dipMeans azf dipf hi)

lemma dipMaxOf_eq_some_binMean (azf dipf : List ℚ) :
    ∃ i, i < 36 ∧ binMean azf dipf i = dipMaxOf azf dipf := by
  have hne : dipMeans azf dipf ≠ [] := by
    simp [dipMeans, List.range_succ]
  have hmem := listMax_mem hne
  unfold dipMeans at hmem
  rcases List.mem_map.mp hmem with ⟨j, hj, hjeq⟩
  exact ⟨j, List.mem_range.mp hj, hjeq⟩

/-- C4 (counterexample): validation does not restrict dips, and with a
negative dip the claimed bound fails: for 24 strikes of 10 plus one of 20
and 24 dips of 50 plus one of -50 (validated), bin 2 has normalized_dip -1.
Moreover with a single positive dip among large negative ones (validated),
no bin reaches normalized_dip 1. -/
theorem c4_counterexample :
    validate (List.replicate 24 (10 : ℚ) ++ [20])
        (List.replicate 24 (50 : ℚ) ++ [-50]) = [] ∧
    (binAt (aggregate (List.replicate 24 (10 : ℚ) ++ [20])
        (List.replicate 24 (50 : ℚ) ++ [-50])) 2).normalized_dip = -1 ∧
    ¬ (0 ≤ (binAt (aggregate (List.replicate 24 (10 : ℚ) ++ [20])
        (List.replicate 24 (50 : ℚ) ++ [-50])) 2).normalized_dip) ∧
    validate (List.replicate 25 (10 : ℚ))
        ((1 : ℚ) :: List.replicate 24 (-100 : ℚ)) = [] ∧
    ((1 : ℚ) ∈ ((1 : ℚ) :: List.replicate 24 (-100 : ℚ)) ∧ (0 : ℚ) < 1) ∧
    (aggregate (List.replicate 25 (10 : ℚ))
        ((1 : ℚ) :: List.replicate 24 (-100 : ℚ))).all
      (fun b => decide (b.normalized_dip ≠ 1)) = true := by
  refine ⟨?_, ?_, ?_, ?_, ?_, ?_⟩
  · with_unfolding_all decide
  · with_unfolding_all decide
  · with_unfolding_all decide
  · with_unfolding_all decide
  · with_unfolding_all decide
  · with_unfolding_all decide

/-- C4 (amended): for every validated measurement set whose dips are all
nonnegative, every bin satisfies 0 ≤ normalized_dip ≤ 1, and whenever at
least one dip value is positive, at least one bin has normalized_dip = 1.
(The unrestricted form of the claim is false: validation indeed accepts
negative dips, and those produce normalized_dip outside [0, 1], see the
counterexample.) -/
theorem c4_normalization_bounds (strikes dips : List ℚ)
    (h : validate strikes dips = []) (hd : ∀ d ∈ dips, 0 ≤ d) :
    (∀ b ∈ aggregate strikes dips,
      0 ≤ b.normalized_dip ∧ b.normalized_dip ≤ 1) ∧
    ((∃ d ∈ dips, 0 < d) →
      ∃ b ∈ aggregate strikes dips, b.normalized_dip = 1) := by
  have hlen := (validate_eq_nil h).2.2
  have hdf : ∀ d ∈ dipsFull dips, 0 ≤ d := by
    intro d hdm
    rcases List.mem_append.mp hdm with h1 | h1
    · exact hd d h1
    · exact hd d h1
  constructor
  · intro b hb
    rcases mem_aggregate hb with ⟨i, hi, hbi⟩
    subst hbi
    have hmean : 0 ≤ binMean (azFull strikes) (dipsFull dips) i :=
      binMean_nonneg hdf i
    have hle : binMean (azFull strikes) (dipsFull dips) i ≤
        dipMaxOf (azFull strikes) (dipsFull dips) :=
      binMean_le_dipMaxOf _ _ hi
    show 0 ≤ (if 0 < dipMaxOf (azFull strikes) (dipsFull dips) then
          binMean (azFull strikes) (dipsFull dips) i /
            dipMaxOf (azFull strikes) (dipsFull dips)
        else binMean (azFull strikes) (dipsFull dips) i) ∧
      (if 0 < dipMaxOf (azFull strikes) (dipsFull dips) then
          binMean (azFull strikes) (dipsFull dips) i /
            dipMaxOf (azFull strikes) (dipsFull dips)
        else binMean (azFull strikes) (dipsFull dips) i) ≤ 1
    by_cases hpos : 0 < dipMaxOf (azFull strikes) (dipsFull dips)
    · rw [if_pos hpos]
      constructor
      · exact div_nonneg hmean hpos.le
      · rw [div_le_one hpos]
        exact hle
    · rw [if_neg hpos]
      constructor
      · exact hmean
      · push_neg at hpos
        linarith
  · rintro ⟨d0, hd0mem, hd0pos⟩
    rcases List.mem_iff_getElem.mp hd0mem with ⟨j, hj, hjd⟩
    have hjs : j < strikes.length := by omega
    set a := foldAz strikes[j] with ha
    have ha0 : 0 ≤ a := foldAz_nonneg _
    have ha180 : a < 180 := foldAz_lt _
    set i := binIdx a with hidef
    have hi36 : i < 36 := by
      have := binIdx_lt_18 ha180
      omega
    have hjz : j < (azList strikes).length := by simpa [azList] using hjs
    have haz : (azList strikes)[j] = a := by
      simp [azList, ha]
    have hpairmem : (a, d0) ∈ (azList strikes).zip dips := by
      rw [List.mem_iff_getElem]
      refine ⟨j, ?_, ?_⟩
      · simp [azList]
        omega
      · rw [List.getElem_zip]
        rw [haz, hjd]
    have hzipmem : (a, d0) ∈ (azFull strikes).zip (dipsFull dips) := by
      rw [zipFull_split strikes dips hlen]
      exact List.mem_append_left _ hpairmem
    have hin : inBin i a = true := inBin_binIdx ha0
    have hselmem : d0 ∈ (((azFull strikes).zip (dipsFull dips)).filter
        (fun p => inBin i p.1)).map Prod.snd := by
      apply List.mem_map.mpr
      refine ⟨(a, d0), ?_, rfl⟩
      exact List.mem_filter.mpr ⟨hzipmem, hin⟩
    have hcount : 0 < binCount (azFull strikes) i := by
      unfold binCount
      rw [List.length_pos]
      apply List.ne_nil_of_mem
      show a ∈ (azFull strikes).filter (fun x => inBin i x)
      apply List.mem_filter.mpr
      refine ⟨?_, hin⟩
      apply List.mem_append_left
      rw [List.mem_iff_getElem]
      exact ⟨j, by simpa [azList] using hjs, haz⟩
    have hsum : 0 < ((((azFull strikes).zip (dipsFull dips)).filter
        (fun p => inBin i p.1)).map Prod.snd).sum := by
      have hsel_nonneg : ∀ x ∈ (((azFull strikes).zip (dipsFull dips)).filter
          (fun p => inBin i p.1)).map Prod.snd, 0 ≤ x :=
        fun x hx => hdf x (mem_sel_mem_dipf hx)
      have := List.single_le_sum hsel_nonneg d0 hselmem
      linarith
    have hlenpos : 0 < ((((azFull strikes).zip (dipsFull dips)).filter
        (fun p => inBin i p.1)).map Prod.snd).length := by
      rw [List.length_pos]
      exact List.ne_nil_of_mem hselmem
    have hmeanpos : 0 < binMean (azFull strikes) (dipsFull dips) i := by
      unfold binMean
      rw [if_pos hcount]
      apply div_pos hsum
      exact_mod_cast hlenpos
    have hdmaxpos : 0 < dipMaxOf (azFull strikes) (dipsFull dips) :=
      lt_of_lt_of_le hmeanpos (binMean_le_dipMaxOf _ _ hi36)
    rcases dipMaxOf_eq_some_binMean (azFull strikes) (dipsFull dips) with
      ⟨i0, hi0, hi0eq⟩
    refine ⟨mkBin (azFull strikes) (dipsFull dips)
        (dipMaxOf (azFull strikes) (dipsFull dips)) i0, ?_, ?_⟩
    · rw [aggregate_eq]
      exact List.mem_map.mpr ⟨i0, List.mem_range.mpr hi0, rfl⟩
    · show (if 0 < dipMaxOf (azFull strikes) (dipsFull dips) then
            binMean (azFull strikes) (dipsFull dips) i0 /
              dipMaxOf (azFull strikes) (dipsFull dips)
          else binMean (azFull strikes) (dipsFull dips) i0) = 1
      rw [if_pos hdmaxpos, hi0eq, div_self (ne_of_gt hdmaxpos)]

theorem c4_normalization_bounds_witness :
    validate (List.replicate 25 (10 : ℚ)) (List.replicate 25 (50 : ℚ)) = [] ∧
    (∀ d ∈ List.replicate 25 (50 : ℚ), 0 ≤ d) ∧
    ((∀ b ∈ aggregate (List.replicate 25 (10 : ℚ)) (List.replicate 25 (50 : ℚ)),
        0 ≤ b.normalized_dip ∧ b.normalized_dip ≤ 1) ∧
      ((∃ d ∈ List.replicate 25 (50 : ℚ), 0 < d) →
        ∃ b ∈ aggregate (List.replicate 25 (10 : ℚ)) (List.replicate 25 (50 : ℚ)),
          b.normalized_dip = 1)) :=
  ⟨by with_unfolding_all decide, by with_unfolding_all decide,
   c4_normalization_bounds _ _ (by with_unfolding_all decide)
     (by with_unfolding_all decide)⟩

/-! C5: what parse_input actually does. -/

lemma removeChar_replaceChar (l : List Char) :
    removeChar ' ' (replaceChar '\n' ',' l) =
      replaceChar '\n' ',' (removeChar ' ' l) := by
  unfold removeChar replaceChar
  rw [List.filter_map]
  congr 1
  apply List.filter_congr
  intro c _
  by_cases h : c = '\n'
  · subst h
    simp [Function.comp]
  · simp [Function.comp, h]

lemma splitOnComma_replaceChar (l : List Char) :
    splitOnComma (replaceChar '\n' ',' l) = splitOnCommaNL l := by
  induction l with
  | nil => rfl
  | cons c t ih =>
      by_cases h1 : c = ','
      · subst h1
        simp [replaceChar, splitOnComma, splitOnCommaNL] at ih ⊢
        exact ih
      · by_cases h2 : c = '\n'
        · subst h2
          simp [replaceChar, splitOnComma, splitOnCommaNL] at ih ⊢
          exact ih
        · simp [replaceChar, splitOnComma, splitOnCommaNL, h1, h2] at ih ⊢
          rw [ih]

lemma filter_map_trim (toks : List (List Char)) :
    List.map trimChars (List.filter (fun x => trimChars x ≠ []) toks) =
      List.filter (fun x => x ≠ []) (List.map trimChars toks) := by
  rw [List.filter_map]
  congr 1

/-- C5 (counterexample): parse_input deletes spaces inside tokens instead of
treating a space-separated token as non-numeric: on the field text
`1 2` the parser described by the claim fails (token `1 2` is not a number
after stripping), but parse_input returns the single number 12. -/
theorem c5_counterexample :
    parse_input (String.mk ['1', ' ', '2']) = some [12] ∧
    parse_spec (String.mk ['1', ' ', '2']) = none := by
  constructor
  · with_unfolding_all decide
  · with_unfolding_all decide

/-- C5 (amended): parsing first deletes every space character — including
spaces inside tokens, which are joined rather than rejected — replaces
newlines by commas and splits on commas (equivalently: splits the
space-stripped text on commas and newlines), strips and drops empty tokens,
and parses the rest as floats; text that strips to nothing gives the empty
list.  A non-numeric token makes parse_input fail, and the generate handler
has no try/except, so the failure propagates as an uncaught exception before
validation — no field-identifying message is produced. -/
theorem c5_parse_and_abort (stext dtext : String) :
    parse_input stext = parse_amended stext ∧
    (parse_input stext = none → generate_button stext dtext = Outcome.exn) ∧
    (∀ strikes, parse_input stext = some strikes → parse_input dtext = none →
      generate_button stext dtext = Outcome.exn) := by
  refine ⟨?_, ?_, ?_⟩
  · unfold parse_input parse_amended
    by_cases h : trimChars stext.data = []
    · rw [if_pos h, if_pos h]
    · rw [if_neg h, if_neg h]
      rw [removeChar_replaceChar, splitOnComma_replaceChar, filter_map_trim]
  · intro hnone
    unfold generate_button
    rw [hnone]
  · intro strikes hs hd
    unfold generate_button
    rw [hs, hd]

theorem c5_parse_and_abort_witness :
    parse_input (String.mk ['a', 'b', 'c']) =
        parse_amended (String.mk ['a', 'b', 'c']) ∧
    generate_button (String.mk ['a', 'b', 'c']) (String.mk ['1', '0']) =
        Outcome.exn :=
  ⟨(c5_parse_and_abort (String.mk ['a', 'b', 'c']) (String.mk ['1', '0'])).1,
   (c5_parse_and_abort (String.mk ['a', 'b', 'c']) (String.mk ['1', '0'])).2.1
     (by with_unfolding_all decide)⟩

end RoseApp
